import Mathlib

/-!
# Verification of the `enclave` mruby sandbox core

Shallow embedding of `src/ext/enclave/sandbox_core.c` and
`src/ext/enclave/enclave.c`, with theorems settling the specification
claims about the memory-tracking allocator shim, the deadline watcher,
the value bridge, the output capture, the tool registry, and the host
facade's error surfacing.
-/

namespace Enclave

/-! ## Memory tracker and allocator shim (`sandbox_core.c`, lines 32-110)

`size_t` values are modelled as `Nat` with explicit wraparound modulo
`2^64` wherever the C code performs unsigned arithmetic that could wrap.
-/

/-- Width of `size_t` on the LP64 platform the extension targets. -/
def sizeW : Nat := 2 ^ 64

/-- C unsigned addition `a + b` on `size_t`. -/
def add64 (a b : Nat) : Nat := (a + b) % sizeW

/-- C unsigned subtraction `a - b` on `size_t` (wraps on underflow). -/
def sub64 (a b : Nat) : Nat := (a + (sizeW - b % sizeW)) % sizeW

/-- `MEM_HEADER_SIZE`: `(sizeof(size_t) + _Alignof(max_align_t) - 1) &
~(_Alignof(max_align_t) - 1)` instantiated at `sizeof(size_t) = 8`,
`_Alignof(max_align_t) = 16` (x86-64 LP64): round `8` up to a multiple
of `16`. -/
def MEM_HEADER_SIZE : Nat := (8 + 16 - 1) - ((8 + 16 - 1) % 16)

/-- `mem_tracker_t`: per-session allocation accountant. -/
structure MemTracker where
  current : Nat
  limit : Nat
  exceeded : Bool
  deriving Repr, DecidableEq

/-- The three regimes of the allocator callback, by the `(ptr, size)`
argument shape: `size == 0` with non-null `ptr` is a free (the header of
`ptr` stores `oldSize`); null `ptr` with `size > 0` is a malloc;
non-null `ptr` with `size > 0` is a realloc (header stores `oldSize`). -/
inductive AllocReq where
  | free (oldSize : Nat)
  | malloc (size : Nat)
  | realloc (oldSize size : Nat)
  deriving Repr, DecidableEq

/-- What the allocator returns: NULL, or a fresh block whose header
stores `stored` bytes and whose underlying `malloc`/`realloc` request
was for `total` bytes. -/
inductive AllocResult where
  | null
  | block (stored total : Nat)
  deriving Repr, DecidableEq

/-- `mrb_basic_alloc_func` (sandbox_core.c lines 63-110): the allocator
shim, parameterised by the thread-local tracker (`none` = inactive).
The OS allocator is modelled as always succeeding. -/
def mrb_basic_alloc_func (tracker : Option MemTracker) (req : AllocReq) :
    Option MemTracker × AllocResult :=
  match req with
  | .free oldSize =>
      match tracker with
      | some t => (some { t with current := sub64 t.current oldSize }, .null)
      | none => (none, .null)
  | .malloc size =>
      match tracker with
      | some t =>
          if t.limit > 0 ∧ add64 t.current size > t.limit then
            (some { t with exceeded := true }, .null)
          else
            (some { t with current := add64 t.current size },
             .block size (MEM_HEADER_SIZE + size))
      | none => (none, .block size (MEM_HEADER_SIZE + size))
  | .realloc oldSize size =>
      match tracker with
      | some t =>
          if t.limit > 0 ∧ add64 (sub64 t.current oldSize) size > t.limit then
            (some { t with exceeded := true }, .null)
          else
            (some { t with current := add64 (sub64 t.current oldSize) size },
             .block size (MEM_HEADER_SIZE + size))
      | none => (none, .block size (MEM_HEADER_SIZE + size))

end Enclave

namespace Enclave

/-! ## Heap-level trace semantics for the tracker invariant (C4)

A session's allocator activity is a sequence of heap operations run
with the session's tracker active.  The heap records, per live
allocation, the size stored in its header. -/

/-- One live allocation: `(address, size stored in its header)`. -/
abbrev Heap := List (Nat × Nat)

/-- Remove the allocation at `addr`, returning its stored size. -/
def heapRemove : Heap → Nat → Option (Nat × Heap)
  | [], _ => none
  | (a, sz) :: rest, addr =>
      if a = addr then some (sz, rest)
      else (heapRemove rest addr).map fun p => (p.1, (a, sz) :: p.2)

/-- Replace the stored size at `addr` with `newSize`, returning the old
stored size. -/
def heapUpdate : Heap → Nat → Nat → Option (Nat × Heap)
  | [], _, _ => none
  | (a, sz) :: rest, addr, newSize =>
      if a = addr then some (sz, (a, newSize) :: rest)
      else (heapUpdate rest addr newSize).map fun p => (p.1, (a, sz) :: p.2)

/-- Sum of the sizes stored in the headers of the live allocations. -/
def liveSum (h : Heap) : Nat := (h.map Prod.snd).sum

/-- Session-lifetime state seen by the allocator: the tracker, the live
allocations, and a fresh-address counter. -/
structure HeapState where
  tracker : MemTracker
  heap : Heap
  next : Nat
  deriving Repr, DecidableEq

/-- Events of a session's lifetime that touch the tracker: the three
allocator regimes plus the limit/flag assignments done by
`sandbox_limits_begin`, `sandbox_limits_end`, `sandbox_state_new`,
`sandbox_state_reset` and `sandbox_state_free`. -/
inductive HeapOp where
  | malloc (size : Nat)
  | freeAddr (addr : Nat)
  | realloc (addr size : Nat)
  | setLimit (limit : Nat)
  | clearExceeded
  deriving Repr, DecidableEq

/-- One step of the session-lifetime semantics.  `none` means the
operation is not a defined behaviour of the C program (freeing or
reallocating a pointer that is not live, or a `size_t`-overflowing
request, which the VM cannot produce). -/
def heapStep (s : HeapState) : HeapOp → Option HeapState
  | .malloc size =>
      if size = 0 ∨ sizeW ≤ size then none else
      match mrb_basic_alloc_func (some s.tracker) (.malloc size) with
      | (some t, .null) => some { s with tracker := t }
      | (some t, .block stored _) =>
          some { tracker := t, heap := (s.next, stored) :: s.heap, next := s.next + 1 }
      | (none, _) => none
  | .freeAddr addr =>
      match heapRemove s.heap addr with
      | none => none
      | some (oldSize, heap') =>
          match mrb_basic_alloc_func (some s.tracker) (.free oldSize) with
          | (some t, _) => some { s with tracker := t, heap := heap' }
          | (none, _) => none
  | .realloc addr size =>
      if size = 0 ∨ sizeW ≤ size then none else
      match heapUpdate s.heap addr size with
      | none => none
      | some (oldSize, heap') =>
          match mrb_basic_alloc_func (some s.tracker) (.realloc oldSize size) with
          | (some t, .null) => some { s with tracker := t }
          | (some t, .block _ _) => some { s with tracker := t, heap := heap' }
          | (none, _) => none
  | .setLimit limit => some { s with tracker := { s.tracker with limit := limit } }
  | .clearExceeded => some { s with tracker := { s.tracker with exceeded := false } }

/-- Run a list of lifetime events. -/
def runHeapOps (s : HeapState) : List HeapOp → Option HeapState
  | [] => some s
  | op :: ops => (heapStep s op).bind fun s' => runHeapOps s' ops

/-- Initial state of a freshly created session (`sandbox_state_new`
zeroes `current` and `exceeded`; no allocation is live yet). -/
def initHeapState : HeapState :=
  { tracker := { current := 0, limit := 0, exceeded := false }, heap := [], next := 0 }

/-- The tracker invariant: `current` is the sum of live header sizes
(mod `2^64`), and every stored size is a `size_t`. -/
def HeapInv (s : HeapState) : Prop :=
  s.tracker.current = liveSum s.heap % sizeW ∧ ∀ p ∈ s.heap, p.2 < sizeW

end Enclave

namespace Enclave

theorem heapRemove_spec (h : Heap) (addr sz : Nat) (h' : Heap)
    (e : heapRemove h addr = some (sz, h')) :
    liveSum h = sz + liveSum h' ∧ (∃ a, (a, sz) ∈ h) ∧ ∀ p ∈ h', p ∈ h := by
  induction h generalizing h' with
  | nil => simp [heapRemove] at e
  | cons hd tl ih =>
    obtain ⟨a, s⟩ := hd
    simp only [heapRemove] at e
    split at e
    · simp only [Option.some.injEq, Prod.mk.injEq] at e
      obtain ⟨rfl, rfl⟩ := e
      exact ⟨by simp [liveSum], ⟨a, by simp⟩, fun p hp => by simp [hp]⟩
    · cases htl : heapRemove tl addr with
      | none => rw [htl] at e; exact absurd e (by simp)
      | some q =>
        obtain ⟨s', t'⟩ := q
        rw [htl] at e
        simp only [Option.map_some', Option.some.injEq, Prod.mk.injEq] at e
        obtain ⟨rfl, rfl⟩ := e
        obtain ⟨hsum, ⟨a', ha'⟩, hsub⟩ := ih _ htl
        refine ⟨?_, ⟨a', by simp [ha']⟩, ?_⟩
        · simp only [liveSum, List.map_cons, List.sum_cons] at hsum ⊢
          omega
        · intro p hp
          rcases List.mem_cons.mp hp with rfl | hp'
          · simp
          · exact List.mem_cons_of_mem _ (hsub _ hp')

theorem heapUpdate_spec (h : Heap) (addr newSize sz : Nat) (h' : Heap)
    (e : heapUpdate h addr newSize = some (sz, h')) :
    liveSum h' + sz = liveSum h + newSize ∧ (∃ a, (a, sz) ∈ h) ∧
      ∀ p ∈ h', p ∈ h ∨ p.2 = newSize := by
  induction h generalizing h' with
  | nil => simp [heapUpdate] at e
  | cons hd tl ih =>
    obtain ⟨a, s⟩ := hd
    simp only [heapUpdate] at e
    split at e
    · simp only [Option.some.injEq, Prod.mk.injEq] at e
      obtain ⟨rfl, rfl⟩ := e
      refine ⟨by simp [liveSum]; omega, ⟨a, by simp⟩, ?_⟩
      intro p hp
      rcases List.mem_cons.mp hp with rfl | hp'
      · right; rfl
      · left; exact List.mem_cons_of_mem _ hp'
    · cases htl : heapUpdate tl addr newSize with
      | none => rw [htl] at e; exact absurd e (by simp)
      | some q =>
        obtain ⟨s', t'⟩ := q
        rw [htl] at e
        simp only [Option.map_some', Option.some.injEq, Prod.mk.injEq] at e
        obtain ⟨rfl, rfl⟩ := e
        obtain ⟨hsum, ⟨a', ha'⟩, hsub⟩ := ih _ htl
        refine ⟨?_, ⟨a', by simp [ha']⟩, ?_⟩
        · simp only [liveSum, List.map_cons, List.sum_cons] at hsum ⊢
          omega
        · intro p hp
          rcases List.mem_cons.mp hp with rfl | hp'
          · left; simp
          · rcases hsub _ hp' with hin | hsz
            · left; exact List.mem_cons_of_mem _ hin
            · right; exact hsz

theorem heapStep_inv (s s' : HeapState) (op : HeapOp)
    (hinv : HeapInv s) (hstep : heapStep s op = some s') : HeapInv s' := by
  obtain ⟨hcur, hbound⟩ := hinv
  cases op with
  | malloc size =>
    simp only [heapStep] at hstep
    split at hstep
    · exact absurd hstep (by simp)
    · rename_i hsz
      simp only [mrb_basic_alloc_func] at hstep
      by_cases hc : s.tracker.limit > 0 ∧ add64 s.tracker.current size > s.tracker.limit
      · rw [if_pos hc] at hstep
        have h2 : some { s with tracker := { s.tracker with exceeded := true } } = some s' :=
          hstep
        injection h2 with h3
        subst h3
        exact ⟨hcur, hbound⟩
      · rw [if_neg hc] at hstep
        have h2 : some ⟨{ s.tracker with current := add64 s.tracker.current size },
            (s.next, size) :: s.heap, s.next + 1⟩ = some s' := hstep
        injection h2 with h3
        subst h3
        constructor
        · simp only [liveSum, List.map_cons, List.sum_cons, add64, sizeW] at hcur ⊢
          omega
        · intro p hp
          rcases List.mem_cons.mp hp with rfl | hp'
          · simp only [sizeW] at hsz ⊢; omega
          · exact hbound _ hp'
  | freeAddr addr =>
    simp only [heapStep] at hstep
    cases hrem : heapRemove s.heap addr with
    | none => rw [hrem] at hstep; exact absurd hstep (by simp)
    | some q =>
      obtain ⟨oldSize, heap'⟩ := q
      rw [hrem] at hstep
      have h2 : some { s with
          tracker := { s.tracker with current := sub64 s.tracker.current oldSize },
          heap := heap' } = some s' := hstep
      injection h2 with h3
      subst h3
      obtain ⟨hsum, ⟨a, ha⟩, hsub⟩ := heapRemove_spec _ _ _ _ hrem
      have holdW : oldSize < sizeW := hbound _ ha
      constructor
      · simp only [sub64, sizeW] at *
        omega
      · exact fun p hp => hbound _ (hsub _ hp)
  | realloc addr size =>
    simp only [heapStep] at hstep
    split at hstep
    · exact absurd hstep (by simp)
    · rename_i hsz
      cases hupd : heapUpdate s.heap addr size with
      | none => rw [hupd] at hstep; exact absurd hstep (by simp)
      | some q =>
        obtain ⟨oldSize, heap'⟩ := q
        rw [hupd] at hstep
        simp only [mrb_basic_alloc_func] at hstep
        obtain ⟨hsum, ⟨a, ha⟩, hsub⟩ := heapUpdate_spec _ _ _ _ _ hupd
        have holdW : oldSize < sizeW := hbound _ ha
        by_cases hc : s.tracker.limit > 0 ∧
            add64 (sub64 s.tracker.current oldSize) size > s.tracker.limit
        · rw [if_pos hc] at hstep
          have h2 : some { s with tracker := { s.tracker with exceeded := true } } =
              some s' := hstep
          injection h2 with h3
          subst h3
          exact ⟨hcur, hbound⟩
        · rw [if_neg hc] at hstep
          have h2 : some { s with
              tracker := { s.tracker with
                current := add64 (sub64 s.tracker.current oldSize) size },
              heap := heap' } = some s' := hstep
          injection h2 with h3
          subst h3
          constructor
          · simp only [add64, sub64, sizeW] at *
            omega
          · intro p hp
            rcases hsub _ hp with hin | hsz2
            · exact hbound _ hin
            · simp only [sizeW] at hsz ⊢; omega
  | setLimit limit =>
    simp only [heapStep, Option.some.injEq] at hstep
    subst hstep
    exact ⟨hcur, hbound⟩
  | clearExceeded =>
    simp only [heapStep, Option.some.injEq] at hstep
    subst hstep
    exact ⟨hcur, hbound⟩

theorem runHeapOps_inv (ops : List HeapOp) (s s' : HeapState)
    (hinv : HeapInv s) (hrun : runHeapOps s ops = some s') : HeapInv s' := by
  induction ops generalizing s with
  | nil => simp only [runHeapOps, Option.some.injEq] at hrun; exact hrun ▸ hinv
  | cons op ops ih =>
    simp only [runHeapOps] at hrun
    cases hstep : heapStep s op with
    | none => rw [hstep] at hrun; exact absurd hrun (by simp)
    | some s₁ =>
      rw [hstep] at hrun
      exact ih _ (heapStep_inv _ _ _ hinv hstep) hrun

end Enclave

namespace Enclave

/-- C1: while a tracker with positive limit is active, a malloc request
over the limit sets `exceeded` and returns NULL leaving `current`
unchanged, otherwise the shim allocates `header + size`, stores `size`
in the header, adds `size` to `current` and returns the post-header
block; a realloc whose net result exceeds the limit sets `exceeded` and
returns NULL, otherwise it updates `current` by `(new - old)`; a free
request subtracts the stored old size from `current`. -/
theorem alloc_shim_spec (t : MemTracker) (size oldSize : Nat)
    (hlim : 0 < t.limit)
    (hsum : t.current + size < sizeW)
    (holdle : oldSize ≤ t.current) :
    (t.current + size > t.limit →
        mrb_basic_alloc_func (some t) (.malloc size) =
          (some { t with exceeded := true }, .null)) ∧
    (t.current + size ≤ t.limit →
        mrb_basic_alloc_func (some t) (.malloc size) =
          (some { t with current := t.current + size },
           .block size (MEM_HEADER_SIZE + size))) ∧
    (t.current - oldSize + size > t.limit →
        mrb_basic_alloc_func (some t) (.realloc oldSize size) =
          (some { t with exceeded := true }, .null)) ∧
    (t.current - oldSize + size ≤ t.limit →
        mrb_basic_alloc_func (some t) (.realloc oldSize size) =
          (some { t with current := t.current - oldSize + size },
           .block size (MEM_HEADER_SIZE + size))) ∧
    mrb_basic_alloc_func (some t) (.free oldSize) =
      (some { t with current := t.current - oldSize }, .null) := by
  have hsum' : t.current + size < 2 ^ 64 := by
    have h := hsum; simp only [sizeW] at h; exact h
  have hadd : add64 t.current size = t.current + size := by
    simp only [add64, sizeW]; omega
  have hsub : sub64 t.current oldSize = t.current - oldSize := by
    simp only [sub64, sizeW]; omega
  have haddsub : add64 (sub64 t.current oldSize) size = t.current - oldSize + size := by
    simp only [add64, sub64, sizeW]; omega
  refine ⟨?_, ?_, ?_, ?_, ?_⟩
  · intro hgt
    simp only [mrb_basic_alloc_func, hadd]
    split
    · rfl
    · rename_i h; exact absurd ⟨hlim, hgt⟩ h
  · intro hle
    simp only [mrb_basic_alloc_func, hadd]
    split
    · rename_i h; exact absurd h (by omega)
    · rfl
  · intro hgt
    simp only [mrb_basic_alloc_func, haddsub]
    split
    · rfl
    · rename_i h; exact absurd ⟨hlim, hgt⟩ h
  · intro hle
    simp only [mrb_basic_alloc_func, haddsub]
    split
    · rename_i h; exact absurd h (by omega)
    · rfl
  · simp only [mrb_basic_alloc_func, hsub]

/-- Witness for `alloc_shim_spec` at `current = 100`, `limit = 200`,
`size = 50`, `oldSize = 30`. -/
theorem alloc_shim_spec_witness :
    ((100 : Nat) + 50 > 200 →
        mrb_basic_alloc_func (some ⟨100, 200, false⟩) (.malloc 50) =
          (some ⟨100, 200, true⟩, .null)) ∧
    ((100 : Nat) + 50 ≤ 200 →
        mrb_basic_alloc_func (some ⟨100, 200, false⟩) (.malloc 50) =
          (some ⟨150, 200, false⟩, .block 50 (MEM_HEADER_SIZE + 50))) ∧
    ((100 : Nat) - 30 + 50 > 200 →
        mrb_basic_alloc_func (some ⟨100, 200, false⟩) (.realloc 30 50) =
          (some ⟨100, 200, true⟩, .null)) ∧
    ((100 : Nat) - 30 + 50 ≤ 200 →
        mrb_basic_alloc_func (some ⟨100, 200, false⟩) (.realloc 30 50) =
          (some ⟨120, 200, false⟩, .block 50 (MEM_HEADER_SIZE + 50))) ∧
    mrb_basic_alloc_func (some ⟨100, 200, false⟩) (.free 30) =
      (some ⟨70, 200, false⟩, .null) :=
  alloc_shim_spec ⟨100, 200, false⟩ 50 30 (by decide)
    (by show (100 : Nat) + 50 < sizeW; decide) (by decide)

/-- C4: across a session's lifetime, `tracker.current` equals the sum
of the sizes recorded in the headers of the live allocations charged to
this tracker (exactly, whenever that sum fits in `size_t`); in
particular once teardown has freed every live allocation, `current`
ends at `0`. -/
theorem tracker_current_is_live_sum (ops : List HeapOp) (s' : HeapState)
    (hrun : runHeapOps initHeapState ops = some s') :
    s'.tracker.current = liveSum s'.heap % sizeW ∧
    (liveSum s'.heap < sizeW → s'.tracker.current = liveSum s'.heap) ∧
    (s'.heap = [] → s'.tracker.current = 0) := by
  have hinv : HeapInv s' := by
    refine runHeapOps_inv ops initHeapState s' ?_ hrun
    exact ⟨rfl, by intro p hp; simp [initHeapState] at hp⟩
  obtain ⟨hcur, _⟩ := hinv
  refine ⟨hcur, fun hlt => by rw [hcur, Nat.mod_eq_of_lt hlt], fun hemp => ?_⟩
  rw [hcur, hemp]
  rfl

/-- Witness for `tracker_current_is_live_sum`: a lifetime of one eval
under a limit of 200 followed by teardown, ending with `current = 0`. -/
theorem tracker_current_is_live_sum_witness :
    (⟨⟨0, 0, false⟩, [], 3⟩ : HeapState).tracker.current =
        liveSum (⟨⟨0, 0, false⟩, [], 3⟩ : HeapState).heap % sizeW ∧
    (liveSum (⟨⟨0, 0, false⟩, [], 3⟩ : HeapState).heap < sizeW →
        (⟨⟨0, 0, false⟩, [], 3⟩ : HeapState).tracker.current =
          liveSum (⟨⟨0, 0, false⟩, [], 3⟩ : HeapState).heap) ∧
    ((⟨⟨0, 0, false⟩, [], 3⟩ : HeapState).heap = [] →
        (⟨⟨0, 0, false⟩, [], 3⟩ : HeapState).tracker.current = 0) :=
  tracker_current_is_live_sum
    [.malloc 40, .setLimit 200, .clearExceeded, .malloc 100, .realloc 1 60,
     .freeAddr 1, .setLimit 0, .malloc 16, .freeAddr 2, .freeAddr 0]
    ⟨⟨0, 0, false⟩, [], 3⟩ (by rfl)

end Enclave

namespace Enclave

/-! ## Error classification and the host facade (C2, C10)

`sandbox_error_kind_t` and the exception epilogue of
`sandbox_state_eval` (sandbox_core.c lines 734-852), and `enclave_eval`
(enclave.c lines 325-354).  C strings are modelled as Lean strings. -/

/-- `sandbox_error_kind_t`. -/
inductive SandboxErrorKind where
  | errNone
  | runtime
  | timeout
  | memoryLimit
  deriving Repr, DecidableEq

/-- `sandbox_classify_error` (lines 735-744): classify from the
deadline watcher's `expired` flag and the tracker's `exceeded` flag. -/
def sandbox_classify_error (expired exceeded : Bool) : SandboxErrorKind :=
  if expired then .timeout
  else if exceeded then .memoryLimit
  else .runtime

/-- The exception epilogue of `sandbox_state_eval` (lines 834-851):
with a pending VM exception whose `inspect` is `excInspect` (`none`
when `inspect` did not return a string), the returned `error` and
`error_kind`. -/
def sandbox_eval_exc_result (expired exceeded : Bool)
    (excInspect : Option String) : String × SandboxErrorKind :=
  (match excInspect with
   | some s => s
   | none => "unknown error",
   sandbox_classify_error expired exceeded)

/-- C2: when an eval finishes with a pending VM exception, `error_kind`
is `Timeout` if the watcher's `expired` flag is set, else `MemoryLimit`
if the tracker's `exceeded` flag is set, else `Runtime`; the
classification depends on the two flags only, never on the exception
message. -/
theorem classify_error_by_flags_only (expired exceeded : Bool)
    (msg msg' : Option String) :
    (sandbox_eval_exc_result expired exceeded msg).2 =
      (if expired then SandboxErrorKind.timeout
       else if exceeded then SandboxErrorKind.memoryLimit
       else SandboxErrorKind.runtime) ∧
    (sandbox_eval_exc_result expired exceeded msg).2 =
      (sandbox_eval_exc_result expired exceeded msg').2 := by
  exact ⟨rfl, rfl⟩

/-- `sandbox_result_t` (value/output/error are nullable C strings). -/
structure SandboxResult where
  value : Option String
  output : Option String
  error : Option String
  error_kind : SandboxErrorKind
  deriving Repr, DecidableEq

/-- The typed exception classes the facade can raise from `_eval`. -/
inductive RubyExcClass where
  | timeoutError
  | memoryLimitError
  deriving Repr, DecidableEq

/-- What `enclave_eval` does with a `sandbox_result_t`: raise a typed
exception carrying a message, or return the `[value, output, error]`
triple. -/
inductive EvalOutcome where
  | raised (cls : RubyExcClass) (msg : String)
  | triple (value : Option String) (output : String) (error : Option String)
  deriving Repr, DecidableEq

/-- `enclave_eval` (enclave.c lines 325-354) after `sandbox_state_eval`
returned `r`: the outcome, paired with whether `sandbox_result_free`
was called on `r` (every path calls it). -/
def enclave_eval (r : SandboxResult) : EvalOutcome × Bool :=
  if r.error_kind = .timeout then
    (.raised .timeoutError (r.error.getD "execution timeout exceeded"), true)
  else if r.error_kind = .memoryLimit then
    (.raised .memoryLimitError (r.error.getD "memory limit exceeded"), true)
  else
    (.triple r.value (r.output.getD "") r.error, true)

/-- C10: a result with `error_kind` Timeout (resp. MemoryLimit) makes
the facade free the result and raise `Enclave::TimeoutError` (resp.
`Enclave::MemoryLimitError`) carrying only the error message — the
captured output is discarded and the outcome is independent of it —
while every other kind returns the `[value, output, error]` triple with
the captured output. -/
theorem eval_limit_errors_raise (r : SandboxResult) :
    (r.error_kind = .timeout →
      enclave_eval r =
        (.raised .timeoutError (r.error.getD "execution timeout exceeded"), true) ∧
      ∀ o₁ o₂ : Option String,
        enclave_eval { r with output := o₁ } = enclave_eval { r with output := o₂ }) ∧
    (r.error_kind = .memoryLimit →
      enclave_eval r =
        (.raised .memoryLimitError (r.error.getD "memory limit exceeded"), true) ∧
      ∀ o₁ o₂ : Option String,
        enclave_eval { r with output := o₁ } = enclave_eval { r with output := o₂ }) ∧
    (r.error_kind ≠ .timeout → r.error_kind ≠ .memoryLimit →
      enclave_eval r = (.triple r.value (r.output.getD "") r.error, true)) := by
  refine ⟨fun ht => ⟨?_, ?_⟩, fun hm => ⟨?_, ?_⟩, fun ht hm => ?_⟩
  · simp [enclave_eval, ht]
  · intro o₁ o₂; simp [enclave_eval, ht]
  · rcases hr : r.error_kind <;> simp_all [enclave_eval]
  · intro o₁ o₂; rcases hr : r.error_kind <;> simp_all [enclave_eval]
  · simp [enclave_eval, ht, hm]

/-- Witness for `eval_limit_errors_raise` at a Timeout result with
error `"execution timeout exceeded"` and some captured output. -/
theorem eval_limit_errors_raise_witness :
    enclave_eval ⟨none, some "lost output", some "timeout msg", .timeout⟩ =
      (.raised .timeoutError "timeout msg", true) ∧
    enclave_eval ⟨none, some "o1", some "timeout msg", .timeout⟩ =
      enclave_eval ⟨none, some "o2", some "timeout msg", .timeout⟩ :=
  ⟨((eval_limit_errors_raise ⟨none, some "lost output", some "timeout msg", .timeout⟩).1
      rfl).1,
   ((eval_limit_errors_raise ⟨none, none, some "timeout msg", .timeout⟩).1
      rfl).2 (some "o1") (some "o2")⟩

end Enclave

namespace Enclave

/-! ## Deadline watcher (C5)

`timeout_state_t` and `sandbox_code_fetch_hook` (sandbox_core.c lines
116-120 and 205-233). -/

/-- `struct timespec` as compared by the hook. -/
structure Timespec where
  tv_sec : Nat
  tv_nsec : Nat
  deriving Repr, DecidableEq

/-- `TIMEOUT_CHECK_INTERVAL` (line 205). -/
def TIMEOUT_CHECK_INTERVAL : Nat := 1024

/-- `timeout_state_t`: deadline, expired flag and the sampling counter
(an `unsigned int`, hence the mod `2^32` on increment). -/
structure TimeoutState where
  deadline : Timespec
  expired : Bool
  check_counter : Nat
  deriving Repr, DecidableEq

/-- One invocation of `sandbox_code_fetch_hook` (lines 207-233) with
the monotonic clock reading `now`: the updated state, and whether the
hook raised the "execution timeout exceeded" exception (`mrb_raise`
does not return, so nothing follows the raise). -/
def sandbox_code_fetch_hook (ts : TimeoutState) (now : Timespec) :
    TimeoutState × Bool :=
  if ts.expired then (ts, false)
  else
    let counter := (ts.check_counter + 1) % 2 ^ 32
    if counter < TIMEOUT_CHECK_INTERVAL then
      ({ ts with check_counter := counter }, false)
    else
      let ts1 : TimeoutState := { ts with check_counter := 0 }
      if ts1.deadline.tv_sec = 0 ∧ ts1.deadline.tv_nsec = 0 then (ts1, false)
      else if now.tv_sec > ts1.deadline.tv_sec ∨
          (now.tv_sec = ts1.deadline.tv_sec ∧ now.tv_nsec ≥ ts1.deadline.tv_nsec) then
        ({ ts1 with expired := true }, true)
      else (ts1, false)

/-- A run of hook invocations within one armed eval: the final state
and how many invocations raised. -/
def runFetchHooks (ts : TimeoutState) : List Timespec → TimeoutState × Nat
  | [] => (ts, 0)
  | now :: rest =>
      let r := sandbox_code_fetch_hook ts now
      let rr := runFetchHooks r.1 rest
      (rr.1, (if r.2 then 1 else 0) + rr.2)

theorem fetch_hook_expired_noop (ts : TimeoutState) (now : Timespec)
    (h : ts.expired = true) : sandbox_code_fetch_hook ts now = (ts, false) := by
  simp [sandbox_code_fetch_hook, h]

theorem fetch_hook_raise_shape (ts : TimeoutState) (now : Timespec)
    (h : (sandbox_code_fetch_hook ts now).2 = true) :
    ts.expired = false ∧
    ¬ (ts.check_counter + 1) % 2 ^ 32 < TIMEOUT_CHECK_INTERVAL ∧
    ¬ (ts.deadline.tv_sec = 0 ∧ ts.deadline.tv_nsec = 0) ∧
    (now.tv_sec > ts.deadline.tv_sec ∨
      (now.tv_sec = ts.deadline.tv_sec ∧ now.tv_nsec ≥ ts.deadline.tv_nsec)) ∧
    (sandbox_code_fetch_hook ts now).1.expired = true := by
  by_cases he : ts.expired
  · rw [fetch_hook_expired_noop ts now he] at h; simp at h
  · simp only [Bool.not_eq_true] at he
    have he' : ¬ (ts.expired = true) := by rw [he]; simp
    simp only [sandbox_code_fetch_hook] at h ⊢
    rw [if_neg he'] at h ⊢
    by_cases hcnt : (ts.check_counter + 1) % 2 ^ 32 < TIMEOUT_CHECK_INTERVAL
    · rw [if_pos hcnt] at h; simp at h
    · rw [if_neg hcnt] at h ⊢
      by_cases hdl : ts.deadline.tv_sec = 0 ∧ ts.deadline.tv_nsec = 0
      · rw [if_pos hdl] at h; simp at h
      · rw [if_neg hdl] at h ⊢
        by_cases hnow : now.tv_sec > ts.deadline.tv_sec ∨
            (now.tv_sec = ts.deadline.tv_sec ∧ now.tv_nsec ≥ ts.deadline.tv_nsec)
        · rw [if_pos hnow] at h ⊢
          exact ⟨he, hcnt, hdl, hnow, rfl⟩
        · rw [if_neg hnow] at h; simp at h

theorem fetch_hook_no_raise_expired (ts : TimeoutState) (now : Timespec)
    (h : (sandbox_code_fetch_hook ts now).2 = false) :
    (sandbox_code_fetch_hook ts now).1.expired = ts.expired := by
  by_cases he : ts.expired
  · rw [fetch_hook_expired_noop ts now he]
  · simp only [Bool.not_eq_true] at he
    have he' : ¬ (ts.expired = true) := by rw [he]; simp
    simp only [sandbox_code_fetch_hook] at h ⊢
    rw [if_neg he'] at h ⊢
    by_cases hcnt : (ts.check_counter + 1) % 2 ^ 32 < TIMEOUT_CHECK_INTERVAL
    · rw [if_pos hcnt]
    · rw [if_neg hcnt] at h ⊢
      by_cases hdl : ts.deadline.tv_sec = 0 ∧ ts.deadline.tv_nsec = 0
      · rw [if_pos hdl]
      · rw [if_neg hdl] at h ⊢
        by_cases hnow : now.tv_sec > ts.deadline.tv_sec ∨
            (now.tv_sec = ts.deadline.tv_sec ∧ now.tv_nsec ≥ ts.deadline.tv_nsec)
        · rw [if_pos hnow] at h; simp at h
        · rw [if_neg hnow]

theorem runFetchHooks_expired_no_raise (nows : List Timespec) (ts : TimeoutState)
    (h : ts.expired = true) : runFetchHooks ts nows = (ts, 0) := by
  induction nows with
  | nil => rfl
  | cons now rest ih =>
    simp only [runFetchHooks, fetch_hook_expired_noop ts now h]
    simp [ih]

/-- C5: within one armed eval the hook raises at most once; a raise
happens only on a sampling invocation (the counter reaching
`TIMEOUT_CHECK_INTERVAL` with a non-zero deadline and `now` at or past
the deadline), sets `expired`, and once `expired` is set every
subsequent invocation returns immediately without raising. -/
theorem fetch_hook_raises_at_most_once :
    (∀ (ts : TimeoutState) (now : Timespec),
      (sandbox_code_fetch_hook ts now).2 = true →
        ts.expired = false ∧
        ¬ (ts.check_counter + 1) % 2 ^ 32 < TIMEOUT_CHECK_INTERVAL ∧
        ¬ (ts.deadline.tv_sec = 0 ∧ ts.deadline.tv_nsec = 0) ∧
        (now.tv_sec > ts.deadline.tv_sec ∨
          (now.tv_sec = ts.deadline.tv_sec ∧ now.tv_nsec ≥ ts.deadline.tv_nsec)) ∧
        (sandbox_code_fetch_hook ts now).1.expired = true) ∧
    (∀ (ts : TimeoutState) (now : Timespec),
      ts.expired = true → sandbox_code_fetch_hook ts now = (ts, false)) ∧
    (∀ (ts : TimeoutState) (nows : List Timespec),
      (runFetchHooks ts nows).2 ≤ 1) := by
  refine ⟨fetch_hook_raise_shape, fetch_hook_expired_noop, ?_⟩
  intro ts nows
  induction nows generalizing ts with
  | nil => simp [runFetchHooks]
  | cons now rest ih =>
    simp only [runFetchHooks]
    by_cases hr : (sandbox_code_fetch_hook ts now).2
    · have hexp : (sandbox_code_fetch_hook ts now).1.expired = true :=
        (fetch_hook_raise_shape ts now hr).2.2.2.2
      rw [runFetchHooks_expired_no_raise rest _ hexp]
      simp [hr]
    · simp only [Bool.not_eq_true] at hr
      simp only [hr, Bool.false_eq_true, if_false]
      have := ih (sandbox_code_fetch_hook ts now).1
      omega

/-- Witness for `fetch_hook_raises_at_most_once`: it has no top-level
hypothesis, but its first two conjuncts do; discharge them at a state
one tick before sampling with the deadline passed, and at an
already-expired state. -/
theorem fetch_hook_raises_at_most_once_witness :
    ((⟨⟨0, 5⟩, false, 1023⟩ : TimeoutState).expired = false ∧
      ¬ ((⟨⟨0, 5⟩, false, 1023⟩ : TimeoutState).check_counter + 1) % 2 ^ 32 <
          TIMEOUT_CHECK_INTERVAL ∧
      ¬ ((0 : Nat) = 0 ∧ (5 : Nat) = 0) ∧
      ((1 : Nat) > 0 ∨ ((1 : Nat) = 0 ∧ (7 : Nat) ≥ 5)) ∧
      (sandbox_code_fetch_hook ⟨⟨0, 5⟩, false, 1023⟩ ⟨1, 7⟩).1.expired = true) ∧
    sandbox_code_fetch_hook ⟨⟨0, 5⟩, true, 0⟩ ⟨9, 9⟩ = (⟨⟨0, 5⟩, true, 0⟩, false) ∧
    (runFetchHooks ⟨⟨0, 5⟩, false, 1020⟩ [⟨0, 1⟩, ⟨2, 0⟩, ⟨3, 0⟩, ⟨4, 0⟩, ⟨5, 0⟩,
        ⟨6, 0⟩]).2 ≤ 1 :=
  ⟨fetch_hook_raises_at_most_once.1 ⟨⟨0, 5⟩, false, 1023⟩ ⟨1, 7⟩ (by decide),
   fetch_hook_raises_at_most_once.2.1 ⟨⟨0, 5⟩, true, 0⟩ ⟨9, 9⟩ rfl,
   fetch_hook_raises_at_most_once.2.2 ⟨⟨0, 5⟩, false, 1020⟩ _⟩

end Enclave

namespace Enclave

/-! ## Syntax-error reporting (C8)

The parse-failure path of `sandbox_state_eval` (sandbox_core.c lines
776-796). -/

/-- One entry of `parser->error_buffer`. -/
structure ParserError where
  message : String
  lineno : Int
  deriving Repr, DecidableEq

/-- The syntax-error path of `sandbox_state_eval` (lines 782-796): when
`parser->nerr > 0`, build the error string from the first reported
error rebased against the compile context's `lineno`, with kind
Runtime and the output captured so far. -/
def sandbox_eval_syntax_error (ctxLineno : Int) (firstError : ParserError)
    (output : String) : SandboxResult :=
  { value := none,
    output := some output,
    error := some ("SyntaxError: " ++ firstError.message ++ " (line " ++
      toString (firstError.lineno - ctxLineno + 1) ++ ")"),
    error_kind := .runtime }

/-- Modelled from the mruby parser interface: the parser is seeded with
`parser->lineno = cxt->lineno` before parsing (line 778), so an error
on 1-based relative line `r` of the source reports absolute line
`cxt->lineno + r - 1`. -/
def parserErrorLine (ctxLineno r : Int) : Int := ctxLineno + r - 1

/-- C8: on a parse failure the eval returns `error_kind` Runtime and
error `"SyntaxError: <message> (line <relative>)"` where the relative
line is the parser's reported line minus the context's `lineno` plus
one; an error on the first line of the source therefore reports line 1
whatever `lineno` has advanced to, so two successive one-line evals
with syntax errors each report line 1 rather than a growing absolute
line. -/
theorem syntax_error_relative_line (ctxLineno r : Int) (msg out : String) :
    sandbox_eval_syntax_error ctxLineno ⟨msg, parserErrorLine ctxLineno r⟩ out =
      { value := none, output := some out,
        error := some ("SyntaxError: " ++ msg ++ " (line " ++ toString r ++ ")"),
        error_kind := .runtime } ∧
    (sandbox_eval_syntax_error ctxLineno ⟨msg, parserErrorLine ctxLineno 1⟩ out).error =
      some ("SyntaxError: " ++ msg ++ " (line " ++ "1" ++ ")") ∧
    (sandbox_eval_syntax_error ctxLineno ⟨msg, parserErrorLine ctxLineno r⟩
      out).error_kind = .runtime := by
  have heq : ctxLineno + r - 1 - ctxLineno + 1 = r := by ring
  have heq1 : ctxLineno + 1 - 1 - ctxLineno + 1 = 1 := by ring
  refine ⟨?_, ?_, rfl⟩
  · simp only [sandbox_eval_syntax_error, parserErrorLine, heq]
  · simp only [sandbox_eval_syntax_error, parserErrorLine, heq1]
    rfl

end Enclave

namespace Enclave

/-! ## Tool registry across reset (C7)

`func_names`/`func_count` of `struct sandbox_state`,
`register_functions_in_mrb` (lines 491-499), `sandbox_setup_mrb`
(lines 596-618), `sandbox_state_reset` (lines 876-918) and
`sandbox_state_define_function` (lines 941-954), restricted to the
state they touch: the owned name list and the method table of the
current VM's `Kernel` module. -/

/-- The C function a method defined by the sandbox on the root
namespace is backed by. -/
inductive MrbMethod where
  | trampoline
  | printImpl
  | putsImpl
  | pImpl
  deriving Repr, DecidableEq

/-- A VM's `Kernel` method table; `mrb_define_method` prepends, and
lookup takes the most recent definition. -/
abbrev MethodTable := List (String × MrbMethod)

/-- `mrb_define_method` on the kernel module. -/
def mrb_define_method (vm : MethodTable) (name : String) (m : MrbMethod) :
    MethodTable := (name, m) :: vm

/-- `register_functions_in_mrb` (lines 491-499): define every
registered name as a `sandbox_function_trampoline`-backed method. -/
def register_functions_in_mrb (names : List String) (vm : MethodTable) :
    MethodTable :=
  names.foldl (fun t n => mrb_define_method t n .trampoline) vm

/-- `sandbox_setup_mrb` (lines 596-618): install the output overrides,
then re-register the tool functions. -/
def sandbox_setup_mrb (names : List String) (vm : MethodTable) : MethodTable :=
  register_functions_in_mrb names
    (mrb_define_method (mrb_define_method (mrb_define_method vm
      "print" .printImpl) "puts" .putsImpl) "p" .pImpl)

/-- The registry-relevant part of `struct sandbox_state`. -/
structure ToolRegistryState where
  func_names : List String
  kernelMethods : MethodTable
  deriving Repr, DecidableEq

/-- `SANDBOX_MAX_FUNCTIONS` (line 177). -/
def SANDBOX_MAX_FUNCTIONS : Nat := 64

/-- `sandbox_state_define_function` (lines 941-954): append the owned
name and define the trampoline-backed method on the current VM. -/
def sandbox_state_define_function (s : ToolRegistryState) (name : String) :
    Option ToolRegistryState :=
  if SANDBOX_MAX_FUNCTIONS ≤ s.func_names.length then none
  else some { func_names := s.func_names ++ [name],
              kernelMethods := mrb_define_method s.kernelMethods name .trampoline }

/-- `sandbox_state_reset` (lines 876-918): close the VM, open a fresh
one (whose kernel has none of the sandbox's methods), and run
`sandbox_setup_mrb`, which re-registers every name; `func_names` is
not touched. -/
def sandbox_state_reset (s : ToolRegistryState) : ToolRegistryState :=
  { func_names := s.func_names, kernelMethods := sandbox_setup_mrb s.func_names [] }

theorem register_functions_eq (names : List String) (vm : MethodTable) :
    register_functions_in_mrb names vm =
      (names.reverse.map fun n => (n, MrbMethod.trampoline)) ++ vm := by
  induction names generalizing vm with
  | nil => rfl
  | cons n rest ih =>
    simp only [register_functions_in_mrb, List.foldl_cons, List.reverse_cons,
      List.map_append, List.map_cons, List.map_nil, List.append_assoc,
      List.singleton_append] at *
    rw [ih]
    rfl

theorem lookup_map_const (l : List String) (vm : MethodTable) (name : String)
    (hmem : name ∈ l) :
    ((l.map fun n => (n, MrbMethod.trampoline)) ++ vm).lookup name =
      some .trampoline := by
  induction l with
  | nil => simp at hmem
  | cons n rest ih =>
    simp only [List.map_cons, List.cons_append, List.lookup]
    by_cases hn : name = n
    · simp [hn]
    · have hbeq : (name == n) = false := by simpa using hn
      rw [hbeq]
      exact ih (by rcases List.mem_cons.mp hmem with h | h
                   · exact absurd h hn
                   · exact h)

theorem lookup_registered (names : List String) (vm : MethodTable)
    (name : String) (hmem : name ∈ names) :
    (register_functions_in_mrb names vm).lookup name = some .trampoline := by
  rw [register_functions_eq]
  exact lookup_map_const _ vm name (List.mem_reverse.mpr hmem)

/-- C7: `reset` leaves the registered tool-name list (names and count)
unchanged, and re-installs every registered name as a method backed by
the single trampoline on the new VM's root namespace, so a tool call
made after reset still dispatches to the host callback. -/
theorem reset_preserves_tools (s : ToolRegistryState) :
    (sandbox_state_reset s).func_names = s.func_names ∧
    (sandbox_state_reset s).func_names.length = s.func_names.length ∧
    ∀ name ∈ s.func_names,
      (sandbox_state_reset s).kernelMethods.lookup name = some .trampoline := by
  refine ⟨rfl, rfl, fun name hmem => ?_⟩
  exact lookup_registered s.func_names _ name hmem

/-- Witness for `reset_preserves_tools` at a session with one
registered tool `"foo"`. -/
theorem reset_preserves_tools_witness :
    (sandbox_state_reset ⟨["foo"], [("foo", .trampoline)]⟩).func_names = ["foo"] ∧
    (sandbox_state_reset ⟨["foo"], [("foo", .trampoline)]⟩).func_names.length = 1 ∧
    (sandbox_state_reset ⟨["foo"], [("foo", .trampoline)]⟩).kernelMethods.lookup "foo" =
      some .trampoline := by
  have h := reset_preserves_tools ⟨["foo"], [("foo", .trampoline)]⟩
  exact ⟨h.1, h.2.1, h.2.2 "foo" (by simp)⟩

end Enclave

namespace Enclave

/-! ## Guest values and output capture (C6)

mruby values as the output overrides and the bridge see them, a model
of the mruby runtime's stringification, and `sandbox_mrb_puts`
(sandbox_core.c lines 530-566). -/

/-- An mruby value of the shapes the sandbox manipulates. -/
inductive GuestVal where
  | nil
  | tru
  | fls
  | int (i : Int)
  | flt (f : Float)
  | str (s : String)
  | arr (items : List GuestVal)
  | hash (pairs : List (GuestVal × GuestVal))

mutual

/-- Modelled from the mruby runtime: `inspect` of a value
(`nil.inspect` is `"nil"`, integers print in decimal, strings are
quoted, arrays bracket the comma-separated inspects of their elements,
hashes likewise with `=>` pairs). -/
def mrb_inspect : GuestVal → String
  | .nil => "nil"
  | .tru => "true"
  | .fls => "false"
  | .int i => toString i
  | .flt f => toString f
  | .str s => "\"" ++ s ++ "\""
  | .arr items => "[" ++ String.intercalate ", " (mrb_inspect_list items) ++ "]"
  | .hash pairs => "\x7b" ++ String.intercalate ", " (mrb_inspect_pairs pairs) ++ "\x7d"

def mrb_inspect_list : List GuestVal → List String
  | [] => []
  | v :: rest => mrb_inspect v :: mrb_inspect_list rest

def mrb_inspect_pairs : List (GuestVal × GuestVal) → List String
  | [] => []
  | (k, v) :: rest => (mrb_inspect k ++ " => " ++ mrb_inspect v) :: mrb_inspect_pairs rest

end

/-- Modelled from the mruby runtime: `mrb_obj_as_string` calls `to_s`
(`nil.to_s` is empty, `Array#to_s` and `Hash#to_s` are their
`inspect`). -/
def mrb_obj_as_string : GuestVal → String
  | .nil => ""
  | .tru => "true"
  | .fls => "false"
  | .int i => toString i
  | .flt f => toString f
  | .str s => s
  | .arr items => mrb_inspect (.arr items)
  | .hash pairs => mrb_inspect (.hash pairs)

/-- The append step `sandbox_mrb_puts` performs per printed value
(lines 549-554 and 557-562): append `to_s` of the value, then a
newline unless the string is non-empty and already ends in `'\n'`. -/
def putsAppendOne (ob : String) (v : GuestVal) : String :=
  let s := mrb_obj_as_string v
  if s.length = 0 ∨ s.back ≠ '\n' then ob ++ s ++ "\n" else ob ++ s

/-- The per-argument step of `sandbox_mrb_puts` (lines 544-563): an
array argument is walked one level, element by element; any other
argument is printed directly. -/
def putsArgStep (acc : String) (arg : GuestVal) : String :=
  match arg with
  | .arr items => items.foldl putsAppendOne acc
  | _ => putsAppendOne acc arg

/-- `sandbox_mrb_puts` (lines 530-566): with no arguments append a
single newline; otherwise print each argument in turn. -/
def sandbox_mrb_puts (args : List GuestVal) (ob : String) : String :=
  if args.length = 0 then ob ++ "\n"
  else args.foldl putsArgStep ob

/-- C6 counterexample: `puts [1, [2, 3]]` renders the nested array via
its `to_s` (`"[2, 3]"`) — one line per first-level element only, not
one line per element at every nesting depth. -/
theorem puts_nested_array_counterexample :
    sandbox_mrb_puts [.arr [.int 1, .arr [.int 2, .int 3]]] "" = "1\n[2, 3]\n" ∧
    sandbox_mrb_puts [.arr [.int 1, .arr [.int 2, .int 3]]] "" ≠ "1\n2\n3\n" := by
  constructor
  · rfl
  · intro h
    have h2 : ("1\n[2, 3]\n" : String) = "1\n2\n3\n" := by
      rw [← h]; rfl
    exact absurd h2 (by decide)

/-- What one argument of `puts` contributes, line by line: an array
argument one line per first-level element, anything else one line. -/
def putsLines (v : GuestVal) : List String :=
  match v with
  | .arr items => items.map mrb_obj_as_string
  | _ => [mrb_obj_as_string v]

/-- Newline-terminate a line unless it is non-empty and already
newline-terminated. -/
def terminateLine (s : String) : String :=
  if s.length = 0 ∨ s.back ≠ '\n' then s ++ "\n" else s

/-- Concatenation of a list of lines. -/
def joinLines : List String → String
  | [] => ""
  | s :: rest => s ++ joinLines rest

theorem joinLines_append (a b : List String) :
    joinLines (a ++ b) = joinLines a ++ joinLines b := by
  induction a with
  | nil => simp [joinLines, String.empty_append]
  | cons s ss ih =>
    simp only [List.cons_append, joinLines, List.append_eq]
    rw [ih, String.append_assoc]

theorem putsAppendOne_eq (ob : String) (v : GuestVal) :
    putsAppendOne ob v = ob ++ terminateLine (mrb_obj_as_string v) := by
  simp only [putsAppendOne, terminateLine]
  split
  · rw [String.append_assoc]
  · rfl

theorem foldl_putsAppendOne (l : List GuestVal) (ob : String) :
    l.foldl putsAppendOne ob =
      ob ++ joinLines ((l.map mrb_obj_as_string).map terminateLine) := by
  induction l generalizing ob with
  | nil => simp [joinLines, String.append_empty]
  | cons v rest ih =>
    simp only [List.foldl_cons, List.map_cons, joinLines]
    rw [ih, putsAppendOne_eq, String.append_assoc]

theorem putsArgStep_eq (ob : String) (arg : GuestVal) :
    putsArgStep ob arg = ob ++ joinLines ((putsLines arg).map terminateLine) := by
  cases arg with
  | arr items => exact foldl_putsAppendOne items ob
  | nil => simp [putsArgStep, putsLines, putsAppendOne_eq, joinLines,
      String.append_empty]
  | tru => simp [putsArgStep, putsLines, putsAppendOne_eq, joinLines,
      String.append_empty]
  | fls => simp [putsArgStep, putsLines, putsAppendOne_eq, joinLines,
      String.append_empty]
  | int i => simp [putsArgStep, putsLines, putsAppendOne_eq, joinLines,
      String.append_empty]
  | flt f => simp [putsArgStep, putsLines, putsAppendOne_eq, joinLines,
      String.append_empty]
  | str s => simp [putsArgStep, putsLines, putsAppendOne_eq, joinLines,
      String.append_empty]
  | hash pairs => simp [putsArgStep, putsLines, putsAppendOne_eq, joinLines,
      String.append_empty]

theorem foldl_putsArgStep (args : List GuestVal) (ob : String) :
    args.foldl putsArgStep ob =
      ob ++ joinLines ((args.flatMap putsLines).map terminateLine) := by
  induction args generalizing ob with
  | nil => simp [joinLines, String.append_empty]
  | cons arg rest ih =>
    simp only [List.foldl_cons, List.flatMap_cons, List.map_append]
    rw [putsArgStep_eq, ih, String.append_assoc, joinLines_append]

/-- C6 amended: `puts` with no arguments appends a single newline; for
each argument it appends the argument's string form and a newline
unless that string already ends in one; an array argument is expanded
one level only — one line per first-level element, nested arrays
rendered by their `to_s` — as `puts_nested_array_counterexample`
forces. -/
theorem puts_one_level (args : List GuestVal) (ob : String) :
    sandbox_mrb_puts [] ob = ob ++ "\n" ∧
    (args ≠ [] → sandbox_mrb_puts args ob =
      ob ++ joinLines ((args.flatMap putsLines).map terminateLine)) := by
  refine ⟨rfl, fun hne => ?_⟩
  rw [sandbox_mrb_puts, if_neg (by simpa using hne)]
  exact foldl_putsArgStep args ob

/-- Witness for `puts_one_level` at `puts 1, "x\n"` over a non-empty
buffer. -/
theorem puts_one_level_witness :
    sandbox_mrb_puts [] "pre" = "pre" ++ "\n" ∧
    sandbox_mrb_puts [.int 1, .str "x\n"] "pre" =
      "pre" ++ joinLines (((([.int 1, .str "x\n"] : List GuestVal).flatMap
        putsLines)).map terminateLine) := by
  have h := puts_one_level [.int 1, .str "x\n"] "pre"
  exact ⟨h.1, h.2 (by simp)⟩

end Enclave

namespace Enclave

/-! ## The value bridge (C3)

`sandbox_value_t` (sandbox_core.h lines 28-50), `rb_to_sandbox_value`
(enclave.c lines 58-152) and `sandbox_value_to_mrb` (sandbox_core.c
lines 377-411).  Byte strings are modelled as Lean strings, copied
verbatim by both conversions.  A hash's two parallel `keys`/`vals`
buffers of shared length `len` are modelled as one list of key/value
pairs.  Integers are modelled within `int64_t` range (`NUM2LL` raises
on a wider bignum, outside this embedding), as `hostSupported`
requires. -/

/-- The intermediate tagged union `sandbox_value_t`. -/
inductive SandboxValue where
  | nil
  | tru
  | fls
  | int (i : Int)
  | flt (f : Float)
  | str (s : String)
  | arr (items : List SandboxValue)
  | hash (pairs : List (SandboxValue × SandboxValue))

/-- A CRuby `VALUE` of the classes `rb_to_sandbox_value` distinguishes;
`obj` stands for any value of an unsupported class. -/
inductive HostVal where
  | nil
  | tru
  | fls
  | int (i : Int)
  | flt (f : Float)
  | str (s : String)
  | sym (name : String)
  | arr (items : List HostVal)
  | hash (pairs : List (HostVal × HostVal))
  | obj (className : String)

mutual

/-- `rb_to_sandbox_value` (enclave.c lines 58-152): convert a host
value to the intermediate representation; a symbol becomes the string
of its name; an element conversion failure aborts the aggregate with
the error (the C code then frees the partial aggregate). -/
def rb_to_sandbox_value : HostVal → Except String SandboxValue
  | .nil => .ok .nil
  | .tru => .ok .tru
  | .fls => .ok .fls
  | .int i => .ok (.int i)
  | .flt f => .ok (.flt f)
  | .str s => .ok (.str s)
  | .sym name => .ok (.str name)
  | .arr items =>
      match rb_to_sandbox_list items with
      | .ok l => .ok (.arr l)
      | .error e => .error e
  | .hash pairs =>
      match rb_to_sandbox_pairs pairs with
      | .ok kvs => .ok (.hash kvs)
      | .error e => .error e
  | .obj className =>
      .error ("TypeError: unsupported type for sandbox: " ++ className)

/-- The element loop of the array case (lines 103-120). -/
def rb_to_sandbox_list : List HostVal → Except String (List SandboxValue)
  | [] => .ok []
  | v :: rest =>
      match rb_to_sandbox_value v with
      | .error e => .error e
      | .ok sv =>
          match rb_to_sandbox_list rest with
          | .error e => .error e
          | .ok l => .ok (sv :: l)

/-- The key/value loop of the hash case (lines 121-145). -/
def rb_to_sandbox_pairs : List (HostVal × HostVal) →
    Except String (List (SandboxValue × SandboxValue))
  | [] => .ok []
  | (k, v) :: rest =>
      match rb_to_sandbox_value k with
      | .error e => .error e
      | .ok sk =>
          match rb_to_sandbox_value v with
          | .error e => .error e
          | .ok sv =>
              match rb_to_sandbox_pairs rest with
              | .error e => .error e
              | .ok l => .ok ((sk, sv) :: l)

end

mutual

/-- `sandbox_value_to_mrb` (sandbox_core.c lines 377-411): build the
guest value for an intermediate value. -/
def sandbox_value_to_mrb : SandboxValue → GuestVal
  | .nil => .nil
  | .tru => .tru
  | .fls => .fls
  | .int i => .int i
  | .flt f => .flt f
  | .str s => .str s
  | .arr items => .arr (sandbox_list_to_mrb items)
  | .hash kvs => .hash (sandbox_pairs_to_mrb kvs)

def sandbox_list_to_mrb : List SandboxValue → List GuestVal
  | [] => []
  | v :: rest => sandbox_value_to_mrb v :: sandbox_list_to_mrb rest

/-- The `mrb_hash_set` loop over the key/value entries (lines
400-408). -/
def sandbox_pairs_to_mrb : List (SandboxValue × SandboxValue) →
    List (GuestVal × GuestVal)
  | [] => []
  | (k, v) :: rest =>
      (sandbox_value_to_mrb k, sandbox_value_to_mrb v) :: sandbox_pairs_to_mrb rest

end

mutual

/-- The claim's expected image of the round trip: the identity except
that every symbol becomes the string of its name (`obj` is excluded by
`hostSupported`). -/
def hostCoerce : HostVal → GuestVal
  | .nil => .nil
  | .tru => .tru
  | .fls => .fls
  | .int i => .int i
  | .flt f => .flt f
  | .str s => .str s
  | .sym name => .str name
  | .arr items => .arr (hostCoerceList items)
  | .hash pairs => .hash (hostCoercePairs pairs)
  | .obj _ => .nil

def hostCoerceList : List HostVal → List GuestVal
  | [] => []
  | v :: rest => hostCoerce v :: hostCoerceList rest

def hostCoercePairs : List (HostVal × HostVal) → List (GuestVal × GuestVal)
  | [] => []
  | (k, v) :: rest => (hostCoerce k, hostCoerce v) :: hostCoercePairs rest

end

mutual

/-- The supported variants of the claim: nil, booleans, `int64_t`
integers, floats, byte strings, symbols, and arrays/hashes thereof. -/
def hostSupported : HostVal → Bool
  | .nil => true
  | .tru => true
  | .fls => true
  | .int i => decide (-(2 ^ 63) ≤ i) && decide (i < 2 ^ 63)
  | .flt _ => true
  | .str _ => true
  | .sym _ => true
  | .arr items => hostSupportedList items
  | .hash pairs => hostSupportedPairs pairs
  | .obj _ => false

def hostSupportedList : List HostVal → Bool
  | [] => true
  | v :: rest => hostSupported v && hostSupportedList rest

def hostSupportedPairs : List (HostVal × HostVal) → Bool
  | [] => true
  | (k, v) :: rest => hostSupported k && hostSupported v && hostSupportedPairs rest

end

mutual

theorem roundTrip_val (v : HostVal) (h : hostSupported v = true) :
    ∃ sv, rb_to_sandbox_value v = .ok sv ∧ sandbox_value_to_mrb sv = hostCoerce v := by
  cases v with
  | nil => exact ⟨.nil, rfl, rfl⟩
  | tru => exact ⟨.tru, rfl, rfl⟩
  | fls => exact ⟨.fls, rfl, rfl⟩
  | int i => exact ⟨.int i, rfl, rfl⟩
  | flt f => exact ⟨.flt f, rfl, rfl⟩
  | str s => exact ⟨.str s, rfl, rfl⟩
  | sym name => exact ⟨.str name, rfl, rfl⟩
  | arr items =>
      obtain ⟨svs, h1, h2⟩ := roundTrip_list items (by
        simpa [hostSupported] using h)
      refine ⟨.arr svs, ?_, ?_⟩
      · simp [rb_to_sandbox_value, h1]
      · simp [sandbox_value_to_mrb, hostCoerce, h2]
  | hash pairs =>
      obtain ⟨kvs, h1, h2⟩ := roundTrip_pairs pairs (by
        simpa [hostSupported] using h)
      refine ⟨.hash kvs, ?_, ?_⟩
      · simp [rb_to_sandbox_value, h1]
      · simp [sandbox_value_to_mrb, hostCoerce, h2]
  | obj className => simp [hostSupported] at h

theorem roundTrip_list (l : List HostVal) (h : hostSupportedList l = true) :
    ∃ svs, rb_to_sandbox_list l = .ok svs ∧
      sandbox_list_to_mrb svs = hostCoerceList l := by
  cases l with
  | nil => exact ⟨[], rfl, rfl⟩
  | cons v rest =>
      rw [hostSupportedList, Bool.and_eq_true] at h
      obtain ⟨sv, h1, h2⟩ := roundTrip_val v h.1
      obtain ⟨svs, h3, h4⟩ := roundTrip_list rest h.2
      refine ⟨sv :: svs, ?_, ?_⟩
      · simp [rb_to_sandbox_list, h1, h3]
      · simp [sandbox_list_to_mrb, hostCoerceList, h2, h4]

theorem roundTrip_pairs (ps : List (HostVal × HostVal))
    (h : hostSupportedPairs ps = true) :
    ∃ kvs, rb_to_sandbox_pairs ps = .ok kvs ∧
      sandbox_pairs_to_mrb kvs = hostCoercePairs ps := by
  cases ps with
  | nil => exact ⟨[], rfl, rfl⟩
  | cons p rest =>
      obtain ⟨k, v⟩ := p
      rw [hostSupportedPairs, Bool.and_eq_true, Bool.and_eq_true] at h
      obtain ⟨⟨hk, hv⟩, hrest⟩ := h
      obtain ⟨sk, h1, h2⟩ := roundTrip_val k hk
      obtain ⟨sv, h3, h4⟩ := roundTrip_val v hv
      obtain ⟨kvs, h5, h6⟩ := roundTrip_pairs rest hrest
      refine ⟨(sk, sv) :: kvs, ?_, ?_⟩
      · simp [rb_to_sandbox_pairs, h1, h3, h5]
      · simp [sandbox_pairs_to_mrb, hostCoercePairs, h2, h4, h6]

end

/-- C3: for every host value built from the supported variants (at any
nesting depth), converting through `rb_to_sandbox_value` and then
`sandbox_value_to_mrb` yields the same value, except that every symbol
comes back as the string of its name. -/
theorem bridge_round_trip (v : HostVal) (h : hostSupported v = true) :
    (rb_to_sandbox_value v).map sandbox_value_to_mrb = .ok (hostCoerce v) := by
  obtain ⟨sv, h1, h2⟩ := roundTrip_val v h
  rw [h1]
  simp [Except.map, h2]

/-- Witness for `bridge_round_trip` at a nested value with a symbol
key, a mixed-key hash and a nested array. -/
theorem bridge_round_trip_witness :
    (rb_to_sandbox_value (.hash [(.sym "k", .arr [.int 1, .str "s"]),
        (.int 2, .nil)])).map sandbox_value_to_mrb =
      .ok (hostCoerce (.hash [(.sym "k", .arr [.int 1, .str "s"]),
        (.int 2, .nil)])) :=
  bridge_round_trip (.hash [(.sym "k", .arr [.int 1, .str "s"]), (.int 2, .nil)])
    (by decide)

end Enclave

namespace Enclave

/-! ## `sandbox_value_free` over the memory layout (C9)

`sandbox_value_free` (sandbox_core.c lines 239-267) walks the union's
buffer pointers, frees them and nulls them, but leaves the `len`
fields in place; the model below keeps the nullable pointers and the
`len` fields explicit to capture what a second call sees. -/

/-- `sandbox_value_t` as `sandbox_value_free` sees it: nullable buffer
pointers with the aggregate `len` beside them. -/
inductive CSandboxValue where
  | nil
  | tru
  | fls
  | int (i : Int)
  | flt (f : Float)
  | str (ptr : Option String)
  | arr (items : Option (List CSandboxValue)) (len : Nat)
  | hash (keys : Option (List CSandboxValue)) (vals : Option (List CSandboxValue))
      (len : Nat)

mutual

/-- `sandbox_value_free` (lines 239-267) on a value reachable through
a non-null pointer: the value left in place and the number of heap
buffers passed to `free`, or `none` when the call dereferences an
invalid pointer. -/
def sandbox_value_free : CSandboxValue → Option (CSandboxValue × Nat)
  | .nil => some (.nil, 0)
  | .tru => some (.tru, 0)
  | .fls => some (.fls, 0)
  | .int i => some (.int i, 0)
  | .flt f => some (.flt f, 0)
  | .str (some _) => some (.str none, 1)
  | .str none => some (.str none, 0)
  | .arr items len =>
      match freeBuffer items len with
      | none => none
      | some n => some (.arr none len, n)
  | .hash keys vals len =>
      match freeBuffer keys len with
      | none => none
      | some nk =>
          match freeBuffer vals len with
          | none => none
          | some nv => some (.hash none none len, nk + nv)

/-- The per-buffer work of the aggregate cases: visit `&buf[i]` for
`i < len`, then `free(buf)`.  A live buffer always has `len` entries
(the bridge allocates it with `calloc(len, ...)`).  A nulled buffer
with `len ≤ 1` is harmless — index 0 passes the null pointer, which
the callee's guard rejects, and `free(NULL)` is a no-op — but with
`len ≥ 2` index 1 is the invalid pointer `NULL + sizeof` whose `type`
field the recursive call reads. -/
def freeBuffer : Option (List CSandboxValue) → Nat → Option Nat
  | some l, len => if len = l.length then (freeElems l).map (· + 1) else none
  | none, len => if len ≤ 1 then some 0 else none

/-- Free each element of a live buffer, totalling the `free` calls. -/
def freeElems : List CSandboxValue → Option Nat
  | [] => some 0
  | x :: xs =>
      match sandbox_value_free x with
      | none => none
      | some (_, n) =>
          match freeElems xs with
          | none => none
          | some m => some (n + m)

end

/-- C9 counterexample: one `sandbox_value_free` of a two-element array
frees the items buffer and nulls the pointer, leaving `len = 2`; a
second call on that value walks `&NULL[i]` and dereferences the
invalid pointer at index 1 — not a safe no-op. -/
theorem value_free_not_idempotent :
    sandbox_value_free (.arr (some [.int 1, .int 2]) 2) =
      some (.arr none 2, 1) ∧
    sandbox_value_free (.arr none 2) = none :=
  ⟨rfl, rfl⟩

mutual

/-- A value as the bridge builds it: buffers present, `len` the buffer
length, recursively. -/
def cwf : CSandboxValue → Bool
  | .nil => true
  | .tru => true
  | .fls => true
  | .int _ => true
  | .flt _ => true
  | .str ptr => ptr.isSome
  | .arr none _ => false
  | .arr (some l) len => decide (len = l.length) && cwfList l
  | .hash (some ks) (some vs) len =>
      decide (len = ks.length) && decide (len = vs.length) &&
        cwfList ks && cwfList vs
  | .hash _ _ _ => false

def cwfList : List CSandboxValue → Bool
  | [] => true
  | x :: xs => cwf x && cwfList xs

end

/-- The value a successful `sandbox_value_free` leaves behind: pointer
fields nulled, scalar payloads and `len` fields untouched. -/
def freedShape : CSandboxValue → CSandboxValue
  | .str _ => .str none
  | .arr _ len => .arr none len
  | .hash _ _ len => .hash none none len
  | v => v

/-- Whether a second free of the zeroed value is safe: anything but an
aggregate of recorded length `≥ 2`. -/
def secondFreeSafe : CSandboxValue → Bool
  | .arr _ len => len ≤ 1
  | .hash _ _ len => len ≤ 1
  | _ => true

mutual

theorem value_free_ok (v : CSandboxValue) (h : cwf v = true) :
    ∃ n, sandbox_value_free v = some (freedShape v, n) := by
  cases v with
  | nil => exact ⟨0, rfl⟩
  | tru => exact ⟨0, rfl⟩
  | fls => exact ⟨0, rfl⟩
  | int i => exact ⟨0, rfl⟩
  | flt f => exact ⟨0, rfl⟩
  | str ptr =>
      cases ptr with
      | none => simp [cwf] at h
      | some s => exact ⟨1, rfl⟩
  | arr items len =>
      cases items with
      | none => simp [cwf] at h
      | some l =>
          rw [cwf, Bool.and_eq_true, decide_eq_true_iff] at h
          obtain ⟨hlen, hl⟩ := h
          obtain ⟨m, hm⟩ := freeElems_ok l hl
          exact ⟨m + 1, by simp [sandbox_value_free, freeBuffer, hlen, hm, freedShape]⟩
  | hash keys vals len =>
      cases keys with
      | none => simp [cwf] at h
      | some ks =>
          cases vals with
          | none => simp [cwf] at h
          | some vs =>
              rw [cwf, Bool.and_eq_true, Bool.and_eq_true, Bool.and_eq_true,
                decide_eq_true_iff, decide_eq_true_iff] at h
              obtain ⟨⟨⟨hklen, hvlen⟩, hks⟩, hvs⟩ := h
              obtain ⟨mk, hmk⟩ := freeElems_ok ks hks
              obtain ⟨mv, hmv⟩ := freeElems_ok vs hvs
              subst hklen
              refine ⟨(mk + 1) + (mv + 1), ?_⟩
              simp [sandbox_value_free, freeBuffer, hvlen, hmk, hmv, freedShape]

theorem freeElems_ok (l : List CSandboxValue) (h : cwfList l = true) :
    ∃ m, freeElems l = some m := by
  cases l with
  | nil => exact ⟨0, rfl⟩
  | cons x xs =>
      rw [cwfList, Bool.and_eq_true] at h
      obtain ⟨n, hn⟩ := value_free_ok x h.1
      obtain ⟨m, hm⟩ := freeElems_ok xs h.2
      exact ⟨n + m, by simp [freeElems, hn, hm]⟩

end

/-- C9 amended: `sandbox_value_free` is recursive over arrays and
hashes, and on every wellformed value one call frees the owned buffers
and nulls the pointer fields (leaving the `len` fields); a second call
on the result is a safe no-op that frees nothing exactly for strings,
scalars, and aggregates of recorded length at most one — on an
aggregate of length `≥ 2` it dereferences offsets from the nulled
buffer pointer, as `value_free_not_idempotent` exhibits. -/
theorem value_free_spec (v : CSandboxValue) (h : cwf v = true) :
    (∃ n, sandbox_value_free v = some (freedShape v, n)) ∧
    (secondFreeSafe v = true →
      sandbox_value_free (freedShape v) = some (freedShape v, 0)) ∧
    (secondFreeSafe v = false → sandbox_value_free (freedShape v) = none) := by
  refine ⟨value_free_ok v h, ?_, ?_⟩
  · intro hs
    cases v with
    | nil => rfl
    | tru => rfl
    | fls => rfl
    | int i => rfl
    | flt f => rfl
    | str ptr => rfl
    | arr items len =>
        rw [secondFreeSafe, decide_eq_true_iff] at hs
        simp [freedShape, sandbox_value_free, freeBuffer, hs]
    | hash keys vals len =>
        rw [secondFreeSafe, decide_eq_true_iff] at hs
        simp [freedShape, sandbox_value_free, freeBuffer, hs]
  · intro hs
    cases v with
    | nil => simp [secondFreeSafe] at hs
    | tru => simp [secondFreeSafe] at hs
    | fls => simp [secondFreeSafe] at hs
    | int i => simp [secondFreeSafe] at hs
    | flt f => simp [secondFreeSafe] at hs
    | str ptr => simp [secondFreeSafe] at hs
    | arr items len =>
        rw [secondFreeSafe, decide_eq_false_iff_not] at hs
        simp [freedShape, sandbox_value_free, freeBuffer, hs]
    | hash keys vals len =>
        rw [secondFreeSafe, decide_eq_false_iff_not] at hs
        simp [freedShape, sandbox_value_free, freeBuffer, hs]

/-- Witness for `value_free_spec` at a wellformed two-element array
holding a live string and a scalar. -/
theorem value_free_spec_witness :
    (∃ n, sandbox_value_free (.arr (some [.str (some "a"), .int 3]) 2) =
      some (freedShape (.arr (some [.str (some "a"), .int 3]) 2), n)) ∧
    (secondFreeSafe (.arr (some [.str (some "a"), .int 3]) 2) = true →
      sandbox_value_free (freedShape (.arr (some [.str (some "a"), .int 3]) 2)) =
        some (freedShape (.arr (some [.str (some "a"), .int 3]) 2), 0)) ∧
    (secondFreeSafe (.arr (some [.str (some "a"), .int 3]) 2) = false →
      sandbox_value_free (freedShape (.arr (some [.str (some "a"), .int 3]) 2)) =
        none) :=
  value_free_spec (.arr (some [.str (some "a"), .int 3]) 2) (by decide)

end Enclave
